import Mathlib

/-
  Verification of the anthropic Go client (github.com/fabiustech/anthropic).

  Shallow embedding of:
  - the error taxonomy and retryability classification (error.go),
  - the non-2xx response classifier interpretResponse (client.go),
  - the server-sent-event framer parseEvents, a faithful model of the regexp
    scan for the pattern "event: (.*?)\ndata: (.*?)\n" (client.go),
  - the message-family streaming interpreter (NewStreamingMessageRequest),
  - the completion-family streaming interpreter and the batch-via-streaming
    accumulator (NewStreamingCompletion / NewCompletionStreamedBatchResponse).

  JSON (un)marshalling of event payloads is abstracted: interpreter events
  carry already-decoded payload records.  Machine ints are modelled as Int.
-/

namespace Anthropic

/- ===== error.go ===== -/

/-- The "rate_limit_error" type tag (error.go). -/
def errRateLimit : String := "rate_limit_error"

/-- The "overloaded_error" type tag (error.go). -/
def errOverloaded : String := "overloaded_error"

/-- Error represents an error returned from the API (error.go).
`code` is the HTTP status code, populated by the client. -/
structure Error where
  type : String
  message : String
  code : Int
deriving Repr, DecidableEq

/-- ResponseError wraps the error body (error.go). -/
structure ResponseError where
  err : Error
deriving Repr, DecidableEq

/-- Retryable (error.go): true iff code >= 500, code == 429, or the type tag
is "overloaded_error" or "rate_limit_error". -/
def ResponseError.Retryable (r : ResponseError) : Bool :=
  decide (500 ≤ r.err.code) || r.err.code == 429 ||
    r.err.type == errOverloaded || r.err.type == errRateLimit

/- ===== interpretResponse (client.go) ===== -/

/-- The body of an HTTP response, as seen by interpretResponse: either it
unmarshals into a ResponseError envelope (carrying type and message), or it
is some other byte string. -/
inductive Body where
  | errJson (type message : String)
  | plain (raw : String)
deriving Repr, DecidableEq

/-- The error value interpretResponse returns: a structured ResponseError
(with the transport status merged into `code`), or the formatted
"code: %d, error: %s" fallback for bodies that fail to unmarshal. -/
inductive InterpretErr where
  | api (r : ResponseError)
  | generic (code : Int) (body : String)
deriving Repr, DecidableEq

/-- interpretResponse (client.go): returns an error when the status code is
below http.StatusOK (200) or at least http.StatusBadRequest (400); on the
error path it merges the transport status code into the decoded body. -/
def interpretResponse (statusCode : Int) (body : Body) : Option InterpretErr :=
  if statusCode < 200 ∨ 400 ≤ statusCode then
    some (match body with
      | .errJson t m => .api ⟨⟨t, m, statusCode⟩⟩
      | .plain s => .generic statusCode s)
  else
    none

/- ===== the event framer: parseEvents (client.go) =====

The Go code scans a byte chunk with
  regexp.MustCompile("event: (.*?)\ndata: (.*?)\n").FindAllSubmatch(b, -1).
Since `.` does not match a newline and the captures are lazy, a match at a
position is: the literal "event: ", then the characters up to the first
newline (capture 1), then the literal "data: ", then the characters up to
the next newline (capture 2).  FindAllSubmatch returns successive leftmost
non-overlapping matches, resuming after the end of each match. -/

/-- The literal "event: " of the pattern. -/
def eventLit : List Char := "event: ".toList

/-- The literal "data: " of the pattern. -/
def dataLit : List Char := "data: ".toList

/-- Result of matching a literal at the head of the input: matched (with the
rest), mismatched, or the input ran out while agreeing with the literal. -/
inductive LitR where
  | ok (rest : List Char)
  | miss
  | part
deriving Repr, DecidableEq

/-- Match a literal at the head of the input. -/
def dropLitR : List Char → List Char → LitR
  | [], s => .ok s
  | _ :: _, [] => .part
  | l :: ls, c :: cs => if c = l then dropLitR ls cs else .miss

/-- Result of scanning for the first newline: the line before it and the rest
after it, or the input ran out before any newline. -/
inductive LineR where
  | ok (line rest : List Char)
  | part
deriving Repr, DecidableEq

/-- Split the input at its first newline. -/
def takeLineR : List Char → LineR
  | [] => .part
  | c :: cs =>
    if c = '\n' then .ok [] cs
    else
      match takeLineR cs with
      | .ok a b => .ok (c :: a) b
      | .part => .part

/-- Result of attempting the whole pattern at the head of the input:
a hit (captures and rest-after-match), a definitive mismatch, or the input
ran out mid-pattern (a partial event at the end of the chunk). -/
inductive MRes where
  | hit (t d rest : List Char)
  | miss
  | part
deriving Repr, DecidableEq

/-- Attempt the pattern "event: (.*?)\ndata: (.*?)\n" at the head of `s`. -/
def matchEv (s : List Char) : MRes :=
  match dropLitR eventLit s with
  | .miss => .miss
  | .part => .part
  | .ok s1 =>
    match takeLineR s1 with
    | .part => .part
    | .ok t s2 =>
      match dropLitR dataLit s2 with
      | .miss => .miss
      | .part => .part
      | .ok s3 =>
        match takeLineR s3 with
        | .part => .part
        | .ok d s4 => .hit t d s4

/-- The submatch group a hit produces, in Go's layout: the full match text,
then the two captures.  Always has length 3, mirroring FindAllSubmatch on a
pattern with two capture groups. -/
def mkGroup (t d : List Char) : List (List Char) :=
  [eventLit ++ t ++ '\n' :: (dataLit ++ d ++ ['\n']), t, d]

/-- FindAllSubmatch: scan left to right; on a hit, emit the group and resume
after the match; otherwise advance one character.  The second component is
the unconsumed tail after the last match (the whole input when there is no
match) — the "leftover partial event text" a buffering caller would keep. -/
def findAll (s : List Char) : List (List (List Char)) × List Char :=
  match s with
  | [] => ([], [])
  | c :: cs =>
    match hm : matchEv (c :: cs) with
    | .hit t d rest =>
      let p := findAll rest
      (mkGroup t d :: p.1, p.2)
    | .miss =>
      let p := findAll cs
      (p.1, if p.1.isEmpty then c :: cs else p.2)
    | .part =>
      let p := findAll cs
      (p.1, if p.1.isEmpty then c :: cs else p.2)
  termination_by s.length
  decreasing_by
  · have hd : ∀ (l s r : List Char), dropLitR l s = LitR.ok r → r.length ≤ s.length := by
      intro l
      induction l with
      | nil =>
        intro s r h
        simp only [dropLitR] at h
        cases h
        exact Nat.le_refl _
      | cons a as ih =>
        intro s r h
        cases s with
        | nil => exact absurd h (by simp [dropLitR])
        | cons c cs =>
          simp only [dropLitR] at h
          split at h
          · exact Nat.le_trans (ih cs r h) (Nat.le_succ _)
          · cases h
    have ht : ∀ (s : List Char) (a b : List Char), takeLineR s = LineR.ok a b → b.length < s.length := by
      intro s
      induction s with
      | nil => intro a b h; exact absurd h (by simp [takeLineR])
      | cons c cs ih =>
        intro a b h
        by_cases hc : c = '\n'
        · simp only [takeLineR, if_pos hc] at h
          cases h
          exact Nat.lt_succ_self _
        · simp only [takeLineR, if_neg hc] at h
          cases hcs : takeLineR cs with
          | ok a' b' =>
            rw [hcs] at h
            cases h
            exact Nat.lt_trans (ih _ _ hcs) (Nat.lt_succ_self _)
          | part =>
            rw [hcs] at h
            cases h
    unfold matchEv at hm
    cases h1 : dropLitR eventLit (c :: cs) with
    | miss => rw [h1] at hm; cases hm
    | part => rw [h1] at hm; cases hm
    | ok s1 =>
      rw [h1] at hm
      simp only [] at hm
      cases h2 : takeLineR s1 with
      | part => rw [h2] at hm; cases hm
      | ok t1 s2 =>
        rw [h2] at hm
        simp only [] at hm
        cases h3 : dropLitR dataLit s2 with
        | miss => rw [h3] at hm; cases hm
        | part => rw [h3] at hm; cases hm
        | ok s3 =>
          rw [h3] at hm
          simp only [] at hm
          cases h4 : takeLineR s3 with
          | part => rw [h4] at hm; cases hm
          | ok d1 s4 =>
            rw [h4] at hm
            simp only [] at hm
            cases hm
            have l1 := hd _ _ _ h1
            have l2 := ht _ _ _ h2
            have l3 := hd _ _ _ h3
            have l4 := ht _ _ _ h4
            simp only [List.length_cons] at l1 ⊢
            omega
  · simp
  · simp

/-- ASCII whitespace, matching unicode.IsSpace on the characters that can
occur in an event type line. -/
def isSpaceChar (c : Char) : Bool :=
  c == ' ' || c == '\t' || c == '\n' || c == '\x0b' || c == '\x0c' || c == '\r'

/-- strings.TrimSpace on a character list. -/
def trimSpace (s : List Char) : List Char :=
  ((s.dropWhile isSpaceChar).reverse.dropWhile isSpaceChar).reverse

/-- An event produced by parseEvents: a (trimmed) type and an opaque payload
(client.go's `event` struct). -/
structure EventRec where
  type : List Char
  data : List Char
deriving Repr, DecidableEq

/-- The loop body of parseEvents: for each submatch group, return the
"bad event" error when the group does not have exactly 3 entries, else build
an event from the trimmed first capture and the raw second capture. -/
def eventsOf : List (List (List Char)) → Except String (List EventRec)
  | [] => .ok []
  | g :: gs =>
    match g with
    | [_, t, d] => (eventsOf gs).map (fun evs => ⟨trimSpace t, d⟩ :: evs)
    | _ => .error "bad event"

/-- parseEvents (client.go): run FindAllSubmatch over the chunk and convert
each group to an event, failing with "bad event" on any group whose length
is not 3. -/
def parseEvents (b : List Char) : Except String (List EventRec) :=
  eventsOf (findAll b).1

/-- The unconsumed tail of a chunk after the last complete event: the text a
buffering framer preserves and prefixes onto the next chunk. -/
def leftoverOf (b : List Char) : List Char :=
  (findAll b).2

/-- Number of newline characters in a chunk. -/
def nlCount (s : List Char) : Nat :=
  s.countP (fun c => c == '\n')

/- ===== v3 data model (v3/role.go, v3/message.go) ===== -/

namespace V3

/-- Role (v3/role.go): unknown is the zero value. -/
inductive Role where
  | unknown
  | user
  | assistant
deriving Repr, DecidableEq

/-- MediaSource (v3/message.go). -/
structure MediaSource where
  type : String := ""
  mediaType : String := ""
  data : String := ""
deriving Repr, DecidableEq

/-- MessageContent (v3/message.go): one content block.  `input` stands for
the raw JSON of a tool input. -/
structure MessageContent where
  type : String := ""
  text : String := ""
  source : Option MediaSource := none
  name : String := ""
  input : String := ""
  content : String := ""
  isError : Bool := false
  toolUseID : String := ""
deriving Repr, DecidableEq

/-- Modelled from the spec: the token-usage counters of a message-family
Response.  The v3.Response type is used by the client (README.md client
code) but its declaration is not among the sources. -/
structure Usage where
  inputTokens : Nat := 0
  outputTokens : Nat := 0
deriving Repr, DecidableEq

/-- Modelled from the spec: v3.Response, the message-family response — role
and identity metadata, the ordered content-block list, stop reason (null
while in progress), nullable stop-sequence text, and usage counters.  The
declaration of v3.Response is not among the sources; its fields are those
the client code reads and writes (Content, StopReason, StopSequence, Usage)
plus the spec's role/identity metadata.  Zero values mirror Go's. -/
structure Response where
  id : String := ""
  role : Role := .unknown
  content : List MessageContent := []
  stopReason : Option String := none
  stopSequence : Option String := none
  usage : Usage := {}
deriving Repr, DecidableEq

end V3

/- ===== the message-family interpreter (NewStreamingMessageRequest) =====

The goroutine consumes framed events in wire order.  Payload unmarshalling
is abstracted: each event constructor carries the decoded payload of the
corresponding v3Event / v3.Response record.  The `index` arguments mirror
the Index field of v3Event, which the handlers decode but never read. -/

/-- A fatal error delivered on the error channel of a streaming call. -/
inductive StreamErr where
  | api (r : ResponseError)
  | raw (payload : String)
  | badEvent
deriving Repr, DecidableEq

/-- The payload of an "error" event: either it unmarshals into a
ResponseError, or its raw text is surfaced. -/
inductive ErrPayload where
  | parsed (r : ResponseError)
  | unparseable (raw : String)
deriving Repr, DecidableEq

/-- What the interpreter sends on the error channel for an "error" event. -/
def errOfPayload : ErrPayload → StreamErr
  | .parsed r => .api r
  | .unparseable s => .raw s

/-- A decoded message-family event. -/
inductive MsgEvent where
  | message_start (r : V3.Response)
  | message_delta (stopReason stopSequence : Option String) (usage : V3.Usage)
  | message_stop
  | content_block_start (index : Int) (contentBlock : V3.MessageContent)
  | content_block_delta (index : Int) (delta : V3.MessageContent)
  | content_block_stop (index : Int)
  | ping
  | error_event (payload : ErrPayload)
  | unrecognized (t : String)
deriving Repr, DecidableEq

/-- Appends text to the Text field of the last block of the list:
resp.Content[len(resp.Content)-1].Text += t. -/
def appendToLast : List V3.MessageContent → String → List V3.MessageContent
  | [], _ => []
  | [b], t => [{ b with text := b.text ++ t }]
  | b :: bs, t => b :: appendToLast bs t

/-- The effect of one event on the message-family interpreter: continue with
an updated response and emitted fragments, stop (message_stop), fail with an
error sent on the error channel, or hit the out-of-range access. -/
inductive StepRes where
  | next (resp : V3.Response) (frags : List String)
  | halt (resp : V3.Response)
  | fault (resp : V3.Response) (e : StreamErr)
  | oob (resp : V3.Response)
deriving Repr, DecidableEq

/-- One switch arm of the NewStreamingMessageRequest /
NewStreamingShortHandMessageRequest goroutine (the two are identical).
The content_block_delta arm models resp.Content[len(resp.Content)-1]:
when the block list is empty, the access is the index-out-of-range
runtime panic (`oob`); the Index field of the decoded event is ignored,
exactly as in the code. -/
def stepMsg (resp : V3.Response) : MsgEvent → StepRes
  | .message_start r => .next r []
  | .message_delta sr ss u =>
    .next { resp with stopReason := sr, stopSequence := ss, usage := u } []
  | .message_stop => .halt resp
  | .content_block_start _ block =>
    .next { resp with content := resp.content ++ [block] } [block.text]
  | .content_block_delta _ delta =>
    if resp.content.isEmpty then .oob resp
    else .next { resp with content := appendToLast resp.content delta.text } [delta.text]
  | .content_block_stop _ => .next resp []
  | .ping => .next resp []
  | .error_event p => .fault resp (errOfPayload p)
  | .unrecognized _ => .fault resp .badEvent

/-- The state of the message-family goroutine after consuming a list of
events: still running (would block for more input), returned after
message_stop, returned after sending an error, or crashed on the
out-of-range access. -/
inductive MsgOutcome where
  | running (resp : V3.Response)
  | stopped (resp : V3.Response)
  | failed (resp : V3.Response) (e : StreamErr)
  | panicked (resp : V3.Response)
deriving Repr, DecidableEq

/-- The response accumulator held by an outcome. -/
def MsgOutcome.resp : MsgOutcome → V3.Response
  | .running r => r
  | .stopped r => r
  | .failed r _ => r
  | .panicked r => r

/-- Whether the outcome is the normal message_stop return. -/
def MsgOutcome.isStopped : MsgOutcome → Bool
  | .stopped _ => true
  | _ => false

/-- Whether the outcome is the out-of-range crash. -/
def MsgOutcome.isPanicked : MsgOutcome → Bool
  | .panicked _ => true
  | _ => false

/-- Run the message-family goroutine over a list of decoded events in wire
order, starting from accumulator `resp`; returns the final state and the
fragments sent on the fragment channel, in emission order.  Events after a
halting event are never interpreted, as in the code's early returns. -/
def runMsgFrom (resp : V3.Response) : List MsgEvent → MsgOutcome × List String
  | [] => (.running resp, [])
  | e :: rest =>
    match stepMsg resp e with
    | .next r frags =>
      let p := runMsgFrom r rest
      (p.1, frags ++ p.2)
    | .halt r => (.stopped r, [])
    | .fault r err => (.failed r err, [])
    | .oob r => (.panicked r, [])

/-- The event kinds a valid in-progress message stream may contain between
message_start and message_stop. -/
def isMidEvent : MsgEvent → Bool
  | .content_block_start _ _ => true
  | .content_block_delta _ _ => true
  | .content_block_stop _ => true
  | .message_delta _ _ _ => true
  | _ => false

/-- No content_block_delta occurs before the first content_block_start. -/
def noDeltaBeforeStart : List MsgEvent → Bool
  | [] => true
  | .content_block_delta _ _ :: _ => false
  | .content_block_start _ _ :: _ => true
  | _ :: rest => noDeltaBeforeStart rest

/-- Events that neither halt the goroutine nor touch the block list. -/
def isPassive : MsgEvent → Bool
  | .message_start _ => true
  | .message_delta _ _ _ => true
  | .content_block_stop _ => true
  | .ping => true
  | _ => false

/-- Every message_start payload carries an empty block list (the spec's
message_start initializes the Response skeleton with an empty block list). -/
def startsEmpty : MsgEvent → Bool
  | .message_start r => r.content.isEmpty
  | _ => true

/-- Concatenation of the Text fields of a block list, in order. -/
def concatTexts : List V3.MessageContent → String
  | [] => ""
  | b :: bs => b.text ++ concatTexts bs

/-- Concatenation of a fragment list, in emission order. -/
def concatAll : List String → String
  | [] => ""
  | s :: rest => s ++ concatAll rest

/- ===== completion family (response.go, models.go, client.go) ===== -/

/-- Model (models.go): the completion-family model enum; UnknownModel is the
zero value. -/
inductive Model where
  | unknownModel
  | claude
  | claude2Dot0
  | claude2Dot1
  | claudeInstant
  | claudeInstant1Dot1
  | claude3Opus20240229
  | claude3Sonnet20240229
deriving Repr, DecidableEq

/-- Response (response.go): the completion-family response. -/
structure Response where
  completion : String := ""
  stopReason : Option String := none
  stop : Option String := none
  model : Model := .unknownModel
deriving Repr, DecidableEq

/-- A decoded completion-family event. -/
inductive CompEvent where
  | completion (r : Response)
  | error_event (payload : ErrPayload)
  | ping
  | unrecognized (t : String)
deriving Repr, DecidableEq

/-- The state of the completion-family goroutine after consuming its input:
still waiting for more chunks, returned after a stop-reason response, or
returned after sending an error. -/
inductive CompOutcome where
  | waiting
  | done
  | failed (e : StreamErr)
deriving Repr, DecidableEq

/-- Result of the inner `for _, e := range events` loop over one parsed
chunk: either the goroutine returned inside the chunk (with the responses
emitted before returning), or it finished the chunk and keeps going. -/
inductive ChunkRes where
  | finished (oc : CompOutcome) (emitted : List Response)
  | keepGoing (emitted : List Response)
deriving Repr, DecidableEq

/-- The inner event loop of the NewStreamingCompletion goroutine: emit each
completion response; return right after one that carries a non-null stop
reason; return on error events and unrecognized event types; skip pings.
Events after a return, in this same chunk, are never interpreted. -/
def runCompChunk : List CompEvent → ChunkRes
  | [] => .keepGoing []
  | e :: es =>
    match e with
    | .completion r =>
      if r.stopReason.isSome then .finished .done [r]
      else
        match runCompChunk es with
        | .finished oc em => .finished oc (r :: em)
        | .keepGoing em => .keepGoing (r :: em)
    | .ping => runCompChunk es
    | .error_event p => .finished (.failed (errOfPayload p)) []
    | .unrecognized _ => .finished (.failed .badEvent) []

/-- The outer receive loop of the NewStreamingCompletion goroutine over the
successive parsed chunks: once a chunk returns, later chunks are never
interpreted; with no chunks left the goroutine blocks waiting. -/
def runCompChunks : List (List CompEvent) → CompOutcome × List Response
  | [] => (.waiting, [])
  | c :: rest =>
    match runCompChunk c with
    | .finished oc emitted => (oc, emitted)
    | .keepGoing emitted =>
      let p := runCompChunks rest
      (p.1, emitted ++ p.2)

/-- A completion event that makes the goroutine return: a completion
response with a non-null stop reason, an error event, or an unrecognized
event type. -/
def isTerminalComp : CompEvent → Bool
  | .completion r => r.stopReason.isSome
  | .error_event _ => true
  | .unrecognized _ => true
  | .ping => false

/-- What NewCompletionStreamedBatchResponse returns: the accreted response,
the first error received, or blocking forever on the channels. -/
inductive BatchRes where
  | result (r : Response)
  | failure (e : StreamErr)
  | hangs
deriving Repr, DecidableEq

/-- The accretion loop of NewCompletionStreamedBatchResponse: for each
received response append its Completion text and, when it carries a stop
reason, take over its stop reason, stop sequence and model; break once the
accumulator has a stop reason.  When the responses run out, the error (if
the goroutine sent one) is received on the error channel. -/
def batchAccum (acc : Response) : List Response → CompOutcome → BatchRes
  | [], .failed e => .failure e
  | [], _ => .hangs
  | rr :: more, oc =>
    let acc' : Response :=
      if rr.stopReason.isSome then
        { completion := acc.completion ++ rr.completion, stopReason := rr.stopReason,
          stop := rr.stop, model := rr.model }
      else
        { acc with completion := acc.completion ++ rr.completion }
    if acc'.stopReason.isSome then .result acc' else batchAccum acc' more oc

/-- NewCompletionStreamedBatchResponse: run the streaming goroutine over the
parsed chunks and accrete its emissions into a single response, starting
from the zero-value Response. -/
def batchFromStream (chunks : List (List CompEvent)) : BatchRes :=
  let p := runCompChunks chunks
  batchAccum {} p.2 p.1

/- ===== theorems ===== -/

/-- C6: an API error is classified retryable exactly when its HTTP status
code is at least 500, or equals 429, or its type tag is "overloaded_error"
or "rate_limit_error"; in particular status 529 with type "overloaded_error"
is retryable and status 400 with type "invalid_request_error" is not. -/
theorem c6_retryable_iff :
    (∀ r : ResponseError, r.Retryable = true ↔
      (500 ≤ r.err.code ∨ r.err.code = 429 ∨
        r.err.type = "overloaded_error" ∨ r.err.type = "rate_limit_error")) ∧
    (ResponseError.mk ⟨"overloaded_error", "x", 529⟩).Retryable = true ∧
    (ResponseError.mk ⟨"invalid_request_error", "m", 400⟩).Retryable = false := by
  refine ⟨?_, by decide, by decide⟩
  intro r
  simp [ResponseError.Retryable, errOverloaded, errRateLimit, Bool.or_eq_true,
    decide_eq_true_eq, beq_iff_eq, or_assoc]

/-- C4 fails on the code: 301 is not a 2xx status, yet interpretResponse
returns nil for it — interpretResponse only errors for statuses below 200
or at least 400, so every 3xx status yields no error. -/
theorem c4_counterexample :
    ¬(200 ≤ (301 : Int) ∧ (301 : Int) < 300) ∧
    interpretResponse 301 (Body.errJson "redirect" "x") = none := by
  constructor
  · decide
  · rfl

/-- C4 amended: interpretResponse returns nil exactly for statuses in
[200, 400) — 2xx and 3xx alike — and for every other status with a body
that unmarshals as an error envelope it returns the structured API error
whose code field is the transport's HTTP status code. -/
theorem c4_amended (statusCode : Int) (body : Body) :
    (interpretResponse statusCode body = none ↔ 200 ≤ statusCode ∧ statusCode < 400) ∧
    (∀ t m, (statusCode < 200 ∨ 400 ≤ statusCode) →
      interpretResponse statusCode (.errJson t m) = some (.api ⟨⟨t, m, statusCode⟩⟩)) := by
  constructor
  · by_cases h : statusCode < 200 ∨ 400 ≤ statusCode
    · unfold interpretResponse
      rw [if_pos h]
      constructor
      · intro hc
        cases hc
      · intro hc
        exfalso
        omega
    · unfold interpretResponse
      rw [if_neg h]
      constructor
      · intro _
        omega
      · intro _
        rfl
  · intro t m h
    unfold interpretResponse
    rw [if_pos h]

/-- C4 amended, witnessed at status 500 with an error-JSON body. -/
theorem c4_amended_witness :
    ((500 : Int) < 200 ∨ (400 : Int) ≤ 500) ∧
    interpretResponse 500 (Body.errJson "api_error" "boom") =
      some (.api ⟨⟨"api_error", "boom", 500⟩⟩) :=
  ⟨by decide, (c4_amended 500 (Body.errJson "api_error" "boom")).2 "api_error" "boom" (by decide)⟩

/-- C7: processing a message_delta event replaces only the stop reason, stop
sequence and usage fields of the accumulator — the id, role and every
accumulated content block are passed on unchanged, and no fragment is
emitted for the event. -/
theorem c7_message_delta_frame (resp : V3.Response) (sr ss : Option String)
    (u : V3.Usage) (rest : List MsgEvent) :
    runMsgFrom resp (.message_delta sr ss u :: rest) =
      runMsgFrom { id := resp.id, role := resp.role, content := resp.content,
                   stopReason := sr, stopSequence := ss, usage := u } rest := by
  simp [runMsgFrom, stepMsg]

/-- C3 is false on the code: a content_block_delta whose index targets
block 0 while block 1 is the most recently opened block is not rejected —
the handler ignores the index and appends the delta text to block 1. -/
theorem c3_counterexample :
    stepMsg { content := [{ type := "text", text := "A" }, { type := "text", text := "B" }] }
      (.content_block_delta 0 { type := "text_delta", text := "x" }) =
    .next { content := [{ type := "text", text := "A" }, { type := "text", text := "Bx" }] }
      ["x"] := by
  rfl

/-- C3 amended: the content_block_delta handler never inspects the event's
index field — for any response with a nonempty block list it appends the
delta text to the last block and emits the fragment, with no error, and the
result is identical for any two index values. -/
theorem c3_amended (resp : V3.Response) (i j : Int) (d : V3.MessageContent)
    (h : resp.content ≠ []) :
    stepMsg resp (.content_block_delta i d) =
      .next { resp with content := appendToLast resp.content d.text } [d.text] ∧
    stepMsg resp (.content_block_delta i d) = stepMsg resp (.content_block_delta j d) := by
  have he : resp.content.isEmpty = false := by
    cases hc : resp.content
    · exact absurd hc h
    · rfl
  exact ⟨by simp [stepMsg, he], rfl⟩

/-- C3 amended, witnessed on a one-block response with index 7. -/
theorem c3_amended_witness :
    ({ content := [{ type := "text", text := "A" }] } : V3.Response).content ≠ [] ∧
    stepMsg { content := [{ type := "text", text := "A" }] }
        (.content_block_delta 7 { text := "y" }) =
      .next { content := [{ type := "text", text := "Ay" }] } ["y"] := by
  constructor
  · decide
  · exact (c3_amended { content := [{ type := "text", text := "A" }] } 7 9 { text := "y" }
      (by decide)).1

/-- C8: a completion-family stream delivering completion events "Hello" and
" world" and then a completion event carrying a non-null stop reason makes
the batch-via-streaming call return a Response with Completion text
"Hello world" and the stop reason (and stop sequence and model) of the
final event. -/
theorem c8_hello_world (sr : String) (stp : Option String) (m1 m2 m3 : Model) :
    batchFromStream
      [[ .completion { completion := "Hello", model := m1 },
         .completion { completion := " world", model := m2 },
         .completion { completion := "", stopReason := some sr, stop := stp, model := m3 } ]] =
      .result { completion := "Hello world", stopReason := some sr, stop := stp, model := m3 } := by
  rfl

theorem concatTexts_append (xs ys : List V3.MessageContent) :
    concatTexts (xs ++ ys) = concatTexts xs ++ concatTexts ys := by
  induction xs with
  | nil => simp [concatTexts, String.empty_append]
  | cons b bs ih => simp [concatTexts, ih, String.append_assoc]

theorem appendToLast_ne_nil (xs : List V3.MessageContent) (t : String) (h : xs ≠ []) :
    appendToLast xs t ≠ [] := by
  cases xs with
  | nil => exact absurd rfl h
  | cons b bs => cases bs <;> simp [appendToLast]

theorem concatTexts_appendToLast (xs : List V3.MessageContent) (t : String) (h : xs ≠ []) :
    concatTexts (appendToLast xs t) = concatTexts xs ++ t := by
  induction xs with
  | nil => exact absurd rfl h
  | cons b bs ih =>
    cases bs with
    | nil => simp [appendToLast, concatTexts, String.append_empty, String.append_assoc]
    | cons b2 bs2 =>
      simp only [appendToLast, concatTexts, ih (by simp), String.append_assoc]

/-- For a run of in-progress events followed by message_stop, the goroutine
returns normally and the block texts accreted on top of the accumulator are
exactly the emitted fragments, in order. -/
theorem msg_accrete (mid : List MsgEvent) :
    ∀ resp : V3.Response, mid.all isMidEvent = true →
    (noDeltaBeforeStart mid = true ∨ resp.content ≠ []) →
    ∃ final frags, runMsgFrom resp (mid ++ [.message_stop]) = (.stopped final, frags) ∧
      concatTexts final.content = concatTexts resp.content ++ concatAll frags := by
  induction mid with
  | nil =>
    intro resp _ _
    exact ⟨resp, [], by simp [runMsgFrom, stepMsg], by simp [concatAll, String.append_empty]⟩
  | cons e mid' ih =>
    intro resp hall hnd
    simp only [List.all_cons, Bool.and_eq_true] at hall
    obtain ⟨hme, hrest⟩ := hall
    cases e with
    | content_block_start k b =>
      obtain ⟨final, frags, hrun, htxt⟩ :=
        ih { resp with content := resp.content ++ [b] } hrest (Or.inr (by simp))
      refine ⟨final, b.text :: frags, ?_, ?_⟩
      · simp [runMsgFrom, stepMsg, hrun]
      · rw [htxt]
        simp [concatTexts_append, concatTexts, concatAll, String.append_assoc,
          String.append_empty]
    | content_block_delta k dd =>
      have hne : resp.content ≠ [] := by
        cases hnd with
        | inl hl => simp [noDeltaBeforeStart] at hl
        | inr hr => exact hr
      have he : resp.content.isEmpty = false := by
        cases hcon : resp.content
        · exact absurd hcon hne
        · rfl
      obtain ⟨final, frags, hrun, htxt⟩ :=
        ih { resp with content := appendToLast resp.content dd.text } hrest
          (Or.inr (appendToLast_ne_nil _ _ hne))
      refine ⟨final, dd.text :: frags, ?_, ?_⟩
      · simp [runMsgFrom, stepMsg, he, hrun]
      · rw [htxt]
        simp [concatTexts_appendToLast _ _ hne, concatAll, String.append_assoc]
    | content_block_stop k =>
      obtain ⟨final, frags, hrun, htxt⟩ := ih resp hrest hnd
      refine ⟨final, frags, ?_, htxt⟩
      simp [runMsgFrom, stepMsg, hrun]
    | message_delta sr ss u =>
      obtain ⟨final, frags, hrun, htxt⟩ :=
        ih { resp with stopReason := sr, stopSequence := ss, usage := u } hrest hnd
      refine ⟨final, frags, ?_, htxt⟩
      simp [runMsgFrom, stepMsg, hrun]
    | message_start r => simp [isMidEvent] at hme
    | message_stop => simp [isMidEvent] at hme
    | ping => simp [isMidEvent] at hme
    | error_event p => simp [isMidEvent] at hme
    | unrecognized t => simp [isMidEvent] at hme

/-- C1: for a valid message-family stream — message_start with an empty
block list, then block/delta events with no delta before the first block,
then message_stop — the goroutine returns normally and the concatenation of
the final Response's block texts equals the concatenation, in emission
order, of every fragment sent on the fragment channel. -/
theorem c1_stream_accretion (r : V3.Response) (mid : List MsgEvent)
    (h1 : r.content = []) (h2 : mid.all isMidEvent = true)
    (h3 : noDeltaBeforeStart mid = true) :
    (runMsgFrom {} (.message_start r :: (mid ++ [.message_stop]))).1.isStopped = true ∧
    concatTexts ((runMsgFrom {} (.message_start r :: (mid ++ [.message_stop]))).1.resp).content =
      concatAll (runMsgFrom {} (.message_start r :: (mid ++ [.message_stop]))).2 := by
  obtain ⟨final, frags, hrun, htxt⟩ := msg_accrete mid r h2 (Or.inl h3)
  have hfull : runMsgFrom {} (.message_start r :: (mid ++ [.message_stop])) =
      (.stopped final, frags) := by
    simp [runMsgFrom, stepMsg, hrun]
  rw [hfull]
  refine ⟨rfl, ?_⟩
  rw [show (MsgOutcome.stopped final, frags).1.resp = final from rfl, htxt, h1]
  simp [concatTexts, String.empty_append]

/-- C1, witnessed on a two-event body producing "Hello". -/
theorem c1_stream_accretion_witness :
    ({} : V3.Response).content = [] ∧
    ([MsgEvent.content_block_start 0 { type := "text", text := "He" },
      MsgEvent.content_block_delta 0 { type := "text_delta", text := "llo" }].all isMidEvent
        = true) ∧
    noDeltaBeforeStart
      [MsgEvent.content_block_start 0 { type := "text", text := "He" },
       MsgEvent.content_block_delta 0 { type := "text_delta", text := "llo" }] = true ∧
    ((runMsgFrom {} (.message_start {} ::
        ([MsgEvent.content_block_start 0 { type := "text", text := "He" },
          MsgEvent.content_block_delta 0 { type := "text_delta", text := "llo" }] ++
          [.message_stop]))).1.isStopped = true ∧
      concatTexts ((runMsgFrom {} (.message_start {} ::
        ([MsgEvent.content_block_start 0 { type := "text", text := "He" },
          MsgEvent.content_block_delta 0 { type := "text_delta", text := "llo" }] ++
          [.message_stop]))).1.resp).content =
        concatAll (runMsgFrom {} (.message_start {} ::
          ([MsgEvent.content_block_start 0 { type := "text", text := "He" },
            MsgEvent.content_block_delta 0 { type := "text_delta", text := "llo" }] ++
            [.message_stop]))).2) :=
  ⟨rfl, by decide, by decide,
    c1_stream_accretion {}
      [MsgEvent.content_block_start 0 { type := "text", text := "He" },
       MsgEvent.content_block_delta 0 { type := "text_delta", text := "llo" }]
      rfl (by decide) (by decide)⟩

/-- Running the message goroutine from an accumulator with an empty block
list, through events that neither halt nor open a block, into a
content_block_delta, reaches the out-of-range access. -/
theorem msg_delta_panics (pre : List MsgEvent) :
    ∀ (resp : V3.Response) (i : Int) (d : V3.MessageContent) (post : List MsgEvent),
    resp.content.isEmpty = true →
    pre.all (fun e => isPassive e && startsEmpty e) = true →
    ((runMsgFrom resp (pre ++ .content_block_delta i d :: post)).1).isPanicked = true := by
  induction pre with
  | nil =>
    intro resp i d post hre _
    simp [runMsgFrom, stepMsg, hre, MsgOutcome.isPanicked]
  | cons e pre' ih =>
    intro resp i d post hre hall
    simp only [List.all_cons, Bool.and_eq_true] at hall
    obtain ⟨⟨hp, hs⟩, hrest⟩ := hall
    cases e with
    | message_start r =>
      have hs' : r.content.isEmpty = true := by simpa [startsEmpty] using hs
      simpa [runMsgFrom, stepMsg] using ih r i d post hs' hrest
    | message_delta sr ss u =>
      simpa [runMsgFrom, stepMsg] using
        ih { resp with stopReason := sr, stopSequence := ss, usage := u } i d post hre hrest
    | content_block_stop k =>
      simpa [runMsgFrom, stepMsg] using ih resp i d post hre hrest
    | ping =>
      simpa [runMsgFrom, stepMsg] using ih resp i d post hre hrest
    | content_block_start k b => simp [isPassive] at hp
    | content_block_delta k dd => simp [isPassive] at hp
    | message_stop => simp [isPassive] at hp
    | error_event p => simp [isPassive] at hp
    | unrecognized t => simp [isPassive] at hp

/-- C10: the content_block_delta handler reads the block at position
(length - 1) of the accumulated list; on any stream whose message_start
payloads carry empty block lists, a content_block_delta arriving before any
content_block_start hits that access with an empty list — the modelled
index-out-of-range panic — so the access is safe only once a
content_block_start has been processed. -/
theorem c10_delta_before_start (pre post : List MsgEvent) (i : Int) (d : V3.MessageContent)
    (h : pre.all (fun e => isPassive e && startsEmpty e) = true) :
    ((runMsgFrom {} (pre ++ .content_block_delta i d :: post)).1).isPanicked = true :=
  msg_delta_panics pre {} i d post rfl h

/-- C10, witnessed: ping and message_start, then a delta, panics. -/
theorem c10_delta_before_start_witness :
    ([MsgEvent.ping, .message_start {}].all (fun e => isPassive e && startsEmpty e) = true) ∧
    ((runMsgFrom {} ([MsgEvent.ping, .message_start {}] ++
        .content_block_delta 0 {} :: [.message_stop])).1).isPanicked = true :=
  ⟨by decide, c10_delta_before_start [.ping, .message_start {}] [.message_stop] 0 {} (by decide)⟩

/-- In one parsed chunk, everything after a terminal event is dead: the
inner loop returns at the terminal event with the same outcome and the same
emissions whether or not later events exist. -/
theorem runCompChunk_terminal (es1 es2 : List CompEvent) (e : CompEvent)
    (h : isTerminalComp e = true) :
    ∃ oc em, runCompChunk (es1 ++ e :: es2) = .finished oc em ∧
      runCompChunk (es1 ++ [e]) = .finished oc em := by
  induction es1 with
  | nil =>
    cases e with
    | completion r =>
      have hs : r.stopReason.isSome = true := by simpa [isTerminalComp] using h
      exact ⟨.done, [r], by simp [runCompChunk, hs], by simp [runCompChunk, hs]⟩
    | error_event p => exact ⟨_, _, rfl, rfl⟩
    | ping => simp [isTerminalComp] at h
    | unrecognized t => exact ⟨_, _, rfl, rfl⟩
  | cons e' es1' ih =>
    obtain ⟨oc, em, h1, h2⟩ := ih
    cases e' with
    | completion r =>
      cases hs : r.stopReason.isSome with
      | true => exact ⟨.done, [r], by simp [runCompChunk, hs], by simp [runCompChunk, hs]⟩
      | false =>
        exact ⟨oc, r :: em, by simp [runCompChunk, hs, h1], by simp [runCompChunk, hs, h2]⟩
    | ping => exact ⟨oc, em, by simp [runCompChunk, h1], by simp [runCompChunk, h2]⟩
    | error_event p => exact ⟨_, _, rfl, rfl⟩
    | unrecognized t => exact ⟨_, _, rfl, rfl⟩

/-- C9: once the completion goroutine meets a terminal event — a completion
response carrying a non-null stop reason, an error event, or an
unrecognized event type — no later event is interpreted and no further
response is emitted: events after it in the same parsed chunk and all later
chunks are dead, and the run is identical to one that ends at the terminal
event. -/
theorem c9_terminal_halts (pre post : List (List CompEvent)) (es1 es2 : List CompEvent)
    (e : CompEvent) (h : isTerminalComp e = true) :
    runCompChunks (pre ++ (es1 ++ e :: es2) :: post) = runCompChunks (pre ++ [es1 ++ [e]]) := by
  obtain ⟨oc, em, h1, h2⟩ := runCompChunk_terminal es1 es2 e h
  induction pre with
  | nil => simp [runCompChunks, h1, h2]
  | cons c pre' ih =>
    simp only [List.cons_append]
    cases hc : runCompChunk c with
    | finished oc' em' => simp [runCompChunks, hc]
    | keepGoing em' => simp [runCompChunks, hc, ih]

/-- C9, witnessed: a stop-reason completion in mid-chunk cuts off the rest
of its chunk and the following chunk. -/
theorem c9_terminal_halts_witness :
    isTerminalComp (.completion { completion := "x", stopReason := some "stop_sequence" })
      = true ∧
    runCompChunks
        [[CompEvent.ping,
          .completion { completion := "x", stopReason := some "stop_sequence" },
          .completion { completion := "y" }],
         [CompEvent.ping]] =
      runCompChunks [[CompEvent.ping,
        .completion { completion := "x", stopReason := some "stop_sequence" }]] :=
  ⟨by decide,
    c9_terminal_halts [] [[CompEvent.ping]] [CompEvent.ping]
      [CompEvent.completion { completion := "y" }]
      (.completion { completion := "x", stopReason := some "stop_sequence" }) (by decide)⟩

theorem dropLitR_ok_shape (l : List Char) :
    ∀ s r, dropLitR l s = .ok r → s = l ++ r := by
  induction l with
  | nil =>
    intro s r h
    simp only [dropLitR] at h
    cases h
    rfl
  | cons a as ih =>
    intro s r h
    cases s with
    | nil => exact absurd h (by simp [dropLitR])
    | cons c cs =>
      simp only [dropLitR] at h
      split at h
      · rename_i hca
        subst hca
        rw [List.cons_append, ih cs r h]
      · cases h

theorem dropLitR_part_shape (l : List Char) :
    ∀ s, dropLitR l s = .part → ∃ l2, l = s ++ l2 := by
  induction l with
  | nil =>
    intro s h
    simp only [dropLitR] at h
    cases s <;> cases h
  | cons a as ih =>
    intro s h
    cases s with
    | nil => exact ⟨a :: as, rfl⟩
    | cons c cs =>
      simp only [dropLitR] at h
      split at h
      · rename_i hca
        subst hca
        obtain ⟨l2, hl2⟩ := ih cs h
        exact ⟨l2, by rw [List.cons_append, ← hl2]⟩
      · cases h

theorem takeLineR_ok_shape (s : List Char) :
    ∀ a b, takeLineR s = .ok a b → s = a ++ '\n' :: b ∧ nlCount a = 0 := by
  induction s with
  | nil => intro a b h; exact absurd h (by simp [takeLineR])
  | cons c cs ih =>
    intro a b h
    by_cases hc : c = '\n'
    · simp only [takeLineR, if_pos hc] at h
      cases h
      subst hc
      exact ⟨rfl, rfl⟩
    · simp only [takeLineR, if_neg hc] at h
      cases hcs : takeLineR cs with
      | ok a' b' =>
        rw [hcs] at h
        cases h
        obtain ⟨h1, h2⟩ := ih _ _ hcs
        constructor
        · rw [List.cons_append, ← h1]
        · simp only [nlCount, List.countP_cons] at h2 ⊢
          simp [h2, hc]
      | part =>
        rw [hcs] at h
        cases h

theorem takeLineR_part_nl (s : List Char) : takeLineR s = .part → nlCount s = 0 := by
  induction s with
  | nil => intro _; rfl
  | cons c cs ih =>
    intro h
    by_cases hc : c = '\n'
    · simp only [takeLineR, if_pos hc] at h
      cases h
    · simp only [takeLineR, if_neg hc] at h
      cases hcs : takeLineR cs with
      | ok a' b' =>
        rw [hcs] at h
        cases h
      | part =>
        have h0 := ih hcs
        simp only [nlCount, List.countP_cons] at h0 ⊢
        simp [h0, hc]

theorem dropLitR_ok_ext (l : List Char) :
    ∀ s r y, dropLitR l s = .ok r → dropLitR l (s ++ y) = .ok (r ++ y) := by
  induction l with
  | nil =>
    intro s r y h
    simp only [dropLitR] at h ⊢
    cases h
    rfl
  | cons a as ih =>
    intro s r y h
    cases s with
    | nil => exact absurd h (by simp [dropLitR])
    | cons c cs =>
      simp only [dropLitR, List.cons_append] at h ⊢
      split at h
      · rename_i hca
        rw [if_pos hca]
        exact ih cs r y h
      · cases h

theorem dropLitR_miss_ext (l : List Char) :
    ∀ s y, dropLitR l s = .miss → dropLitR l (s ++ y) = .miss := by
  induction l with
  | nil =>
    intro s y h
    simp only [dropLitR] at h
    cases h
  | cons a as ih =>
    intro s y h
    cases s with
    | nil => simp only [dropLitR] at h; cases h
    | cons c cs =>
      simp only [dropLitR, List.cons_append] at h ⊢
      split at h
      · rename_i hca
        rw [if_pos hca]
        exact ih cs y h
      · rename_i hca
        rw [if_neg hca]

theorem takeLineR_ok_ext (s : List Char) :
    ∀ a b y, takeLineR s = .ok a b → takeLineR (s ++ y) = .ok a (b ++ y) := by
  induction s with
  | nil => intro a b y h; exact absurd h (by simp [takeLineR])
  | cons c cs ih =>
    intro a b y h
    by_cases hc : c = '\n'
    · simp only [takeLineR, if_pos hc] at h
      cases h
      simp [takeLineR, hc]
    · simp only [takeLineR, if_neg hc] at h
      cases hcs : takeLineR cs with
      | ok a' b' =>
        rw [hcs] at h
        cases h
        simp only [List.cons_append, takeLineR, if_neg hc, List.append_eq]
        rw [ih _ _ y hcs]
      | part =>
        rw [hcs] at h
        cases h

theorem matchEv_hit_ext (s y t d rest : List Char) (h : matchEv s = .hit t d rest) :
    matchEv (s ++ y) = .hit t d (rest ++ y) := by
  unfold matchEv at h ⊢
  cases h1 : dropLitR eventLit s with
  | miss => rw [h1] at h; cases h
  | part => rw [h1] at h; cases h
  | ok s1 =>
    rw [h1] at h
    simp only [] at h
    rw [dropLitR_ok_ext eventLit s s1 y h1]
    simp only []
    cases h2 : takeLineR s1 with
    | part => rw [h2] at h; cases h
    | ok t1 s2 =>
      rw [h2] at h
      simp only [] at h
      rw [takeLineR_ok_ext s1 t1 s2 y h2]
      simp only []
      cases h3 : dropLitR dataLit s2 with
      | miss => rw [h3] at h; cases h
      | part => rw [h3] at h; cases h
      | ok s3 =>
        rw [h3] at h
        simp only [] at h
        rw [dropLitR_ok_ext dataLit s2 s3 y h3]
        simp only []
        cases h4 : takeLineR s3 with
        | part => rw [h4] at h; cases h
        | ok d1 s4 =>
          rw [h4] at h
          simp only [] at h
          cases h
          rw [takeLineR_ok_ext _ _ _ y h4]

theorem matchEv_miss_ext (s y : List Char) (h : matchEv s = .miss) :
    matchEv (s ++ y) = .miss := by
  unfold matchEv at h ⊢
  cases h1 : dropLitR eventLit s with
  | part => rw [h1] at h; cases h
  | miss => rw [dropLitR_miss_ext eventLit s y h1]
  | ok s1 =>
    rw [h1] at h
    simp only [] at h
    rw [dropLitR_ok_ext eventLit s s1 y h1]
    simp only []
    cases h2 : takeLineR s1 with
    | part => rw [h2] at h; cases h
    | ok t1 s2 =>
      rw [h2] at h
      simp only [] at h
      rw [takeLineR_ok_ext s1 t1 s2 y h2]
      simp only []
      cases h3 : dropLitR dataLit s2 with
      | part => rw [h3] at h; cases h
      | miss => rw [dropLitR_miss_ext dataLit s2 y h3]
      | ok s3 =>
        rw [h3] at h
        simp only [] at h
        rw [dropLitR_ok_ext dataLit s2 s3 y h3]
        simp only []
        cases h4 : takeLineR s3 with
        | ok d1 s4 =>
          rw [h4] at h
          simp only [] at h
          cases h
        | part =>
          rw [h4] at h
          cases h

theorem matchEv_hit_shape (s t d rest : List Char) (h : matchEv s = .hit t d rest) :
    s = eventLit ++ (t ++ '\n' :: (dataLit ++ (d ++ '\n' :: rest))) ∧
    nlCount t = 0 ∧ nlCount d = 0 := by
  unfold matchEv at h
  cases h1 : dropLitR eventLit s with
  | miss => rw [h1] at h; cases h
  | part => rw [h1] at h; cases h
  | ok s1 =>
    rw [h1] at h
    simp only [] at h
    cases h2 : takeLineR s1 with
    | part => rw [h2] at h; cases h
    | ok t1 s2 =>
      rw [h2] at h
      simp only [] at h
      cases h3 : dropLitR dataLit s2 with
      | miss => rw [h3] at h; cases h
      | part => rw [h3] at h; cases h
      | ok s3 =>
        rw [h3] at h
        simp only [] at h
        cases h4 : takeLineR s3 with
        | part => rw [h4] at h; cases h
        | ok d1 s4 =>
          rw [h4] at h
          simp only [] at h
          cases h
          have q1 := dropLitR_ok_shape eventLit s s1 h1
          obtain ⟨q2, q2n⟩ := takeLineR_ok_shape _ _ _ h2
          have q3 := dropLitR_ok_shape dataLit s2 s3 h3
          obtain ⟨q4, q4n⟩ := takeLineR_ok_shape _ _ _ h4
          exact ⟨by rw [q1, q2, q3, q4], q2n, q4n⟩

theorem matchEv_hit_nl (s t d rest : List Char) (h : matchEv s = .hit t d rest) :
    2 ≤ nlCount s := by
  obtain ⟨hs, _, _⟩ := matchEv_hit_shape s t d rest h
  subst hs
  simp only [nlCount, List.countP_append, List.countP_cons]
  simp
  omega

theorem matchEv_hit_length (s t d rest : List Char) (h : matchEv s = .hit t d rest) :
    rest.length < s.length := by
  obtain ⟨hs, _, _⟩ := matchEv_hit_shape s t d rest h
  subst hs
  simp [List.length_append, eventLit, dataLit]
  omega

theorem matchEv_part_nl (s : List Char) (h : matchEv s = .part) : nlCount s ≤ 1 := by
  have hev : nlCount eventLit = 0 := by decide
  have hda : nlCount dataLit = 0 := by decide
  unfold matchEv at h
  cases h1 : dropLitR eventLit s with
  | miss => rw [h1] at h; cases h
  | part =>
    obtain ⟨l2, hl⟩ := dropLitR_part_shape eventLit s h1
    have : nlCount s + nlCount l2 = nlCount eventLit := by
      rw [hl]; simp [nlCount, List.countP_append]
    omega
  | ok s1 =>
    rw [h1] at h
    simp only [] at h
    have q1 := dropLitR_ok_shape eventLit s s1 h1
    cases h2 : takeLineR s1 with
    | part =>
      have hn := takeLineR_part_nl s1 h2
      subst q1
      simp only [nlCount, List.countP_append] at hev hn ⊢
      omega
    | ok t1 s2 =>
      rw [h2] at h
      simp only [] at h
      obtain ⟨q2, q2n⟩ := takeLineR_ok_shape s1 t1 s2 h2
      cases h3 : dropLitR dataLit s2 with
      | miss => rw [h3] at h; cases h
      | part =>
        obtain ⟨l2, hl⟩ := dropLitR_part_shape dataLit s2 h3
        have hs2 : nlCount s2 + nlCount l2 = nlCount dataLit := by
          rw [hl]; simp [nlCount, List.countP_append]
        subst q1
        subst q2
        simp only [nlCount, List.countP_append, List.countP_cons] at hev hda hs2 q2n ⊢
        simp
        omega
      | ok s3 =>
        rw [h3] at h
        simp only [] at h
        have q3 := dropLitR_ok_shape dataLit s2 s3 h3
        cases h4 : takeLineR s3 with
        | ok d1 s4 =>
          rw [h4] at h
          simp only [] at h
          cases h
        | part =>
          have hn := takeLineR_part_nl s3 h4
          subst q1
          subst q2
          subst q3
          simp only [nlCount, List.countP_append, List.countP_cons] at hev hda hn q2n ⊢
          simp
          omega

theorem findAll_nil : findAll [] = ([], []) := by
  rw [findAll]

theorem findAll_cons_hit (c : Char) (cs t d rest : List Char)
    (h : matchEv (c :: cs) = .hit t d rest) :
    findAll (c :: cs) = (mkGroup t d :: (findAll rest).1, (findAll rest).2) := by
  rw [findAll]
  split <;> rename_i heq <;> rw [heq] at h <;> cases h <;> rfl

theorem findAll_cons_miss (c : Char) (cs : List Char) (h : matchEv (c :: cs) = .miss) :
    findAll (c :: cs) =
      ((findAll cs).1, if (findAll cs).1.isEmpty then c :: cs else (findAll cs).2) := by
  rw [findAll]
  split <;> rename_i heq <;> rw [heq] at h <;> cases h <;> rfl

theorem findAll_cons_part (c : Char) (cs : List Char) (h : matchEv (c :: cs) = .part) :
    findAll (c :: cs) =
      ((findAll cs).1, if (findAll cs).1.isEmpty then c :: cs else (findAll cs).2) := by
  rw [findAll]
  split <;> rename_i heq <;> rw [heq] at h <;> cases h <;> rfl

theorem findAll_nil_rest (s : List Char) (h : (findAll s).1 = []) : (findAll s).2 = s := by
  cases s with
  | nil => rw [findAll_nil]
  | cons c cs =>
    cases hm : matchEv (c :: cs) with
    | hit t d rest =>
      rw [findAll_cons_hit c cs t d rest hm] at h
      simp at h
    | miss =>
      rw [findAll_cons_miss c cs hm] at h ⊢
      have he : (findAll cs).1.isEmpty = true := by simp_all
      simp [he]
    | part =>
      rw [findAll_cons_part c cs hm] at h ⊢
      have he : (findAll cs).1.isEmpty = true := by simp_all
      simp [he]

theorem findAll_no_nl (s : List Char) (h : nlCount s ≤ 1) : findAll s = ([], s) := by
  induction s with
  | nil => exact findAll_nil
  | cons c cs ih =>
    have hcs : nlCount cs ≤ 1 := by
      simp only [nlCount, List.countP_cons] at h ⊢
      split at h <;> omega
    cases hm : matchEv (c :: cs) with
    | hit t d rest => exact absurd (matchEv_hit_nl _ _ _ _ hm) (by omega)
    | miss =>
      rw [findAll_cons_miss c cs hm, ih hcs]
      simp
    | part =>
      rw [findAll_cons_part c cs hm, ih hcs]
      simp

theorem findAll_groups (s : List Char) :
    ∀ g ∈ (findAll s).1, ∃ t d, g = mkGroup t d := by
  cases s with
  | nil => simp [findAll_nil]
  | cons c cs =>
    cases hm : matchEv (c :: cs) with
    | hit t d rest =>
      rw [findAll_cons_hit c cs t d rest hm]
      intro g hg
      rcases List.mem_cons.mp hg with h1 | h2
      · exact ⟨t, d, h1⟩
      · exact findAll_groups rest g h2
    | miss =>
      rw [findAll_cons_miss c cs hm]
      intro g hg
      exact findAll_groups cs g hg
    | part =>
      rw [findAll_cons_part c cs hm]
      intro g hg
      exact findAll_groups cs g hg
  termination_by s.length
  decreasing_by
  · exact matchEv_hit_length _ _ _ _ hm
  · simp
  · simp

/-- Framing with a leftover buffer splits: scanning a concatenation finds
the first part's matches, then continues on its unconsumed tail prefixed to
the second part. -/
theorem findAll_append (s y : List Char) :
    findAll (s ++ y) =
      ((findAll s).1 ++ (findAll ((findAll s).2 ++ y)).1,
        (findAll ((findAll s).2 ++ y)).2) := by
  cases s with
  | nil => simp [findAll_nil]
  | cons c cs =>
    cases hm : matchEv (c :: cs) with
    | hit t d rest =>
      have hm2 : matchEv (c :: (cs ++ y)) = .hit t d (rest ++ y) := by
        have hx := matchEv_hit_ext (c :: cs) y t d rest hm
        rwa [List.cons_append] at hx
      rw [List.cons_append, findAll_cons_hit c (cs ++ y) t d (rest ++ y) hm2,
        findAll_cons_hit c cs t d rest hm, findAll_append rest y]
      simp [List.cons_append]
    | miss =>
      by_cases hp : (findAll cs).1 = []
      · rw [findAll_cons_miss c cs hm]
        simp [hp]
      · have hm2 : matchEv (c :: (cs ++ y)) = .miss := by
          have hx := matchEv_miss_ext (c :: cs) y hm
          rwa [List.cons_append] at hx
        cases hq : (findAll cs).1 with
        | nil => exact absurd hq hp
        | cons g gl =>
          rw [List.cons_append, findAll_cons_miss c (cs ++ y) hm2,
            findAll_cons_miss c cs hm, findAll_append cs y, hq]
          simp
    | part =>
      have hfa := findAll_no_nl (c :: cs) (matchEv_part_nl (c :: cs) hm)
      rw [hfa]
      simp
  termination_by s.length
  decreasing_by
  · exact matchEv_hit_length _ _ _ _ hm
  · simp

theorem eventsOf_append (gs1 gs2 : List (List (List Char))) (e2 : List EventRec)
    (h2 : eventsOf gs2 = .ok e2) :
    ∀ e1, eventsOf gs1 = .ok e1 → eventsOf (gs1 ++ gs2) = .ok (e1 ++ e2) := by
  induction gs1 with
  | nil =>
    intro e1 h1
    simp only [eventsOf] at h1
    cases h1
    simpa using h2
  | cons g gs ih =>
    intro e1 h1
    rcases g with _ | ⟨x, _ | ⟨t, _ | ⟨d, _ | ⟨z, zs⟩⟩⟩⟩
    · simp [eventsOf] at h1
    · simp [eventsOf] at h1
    · simp [eventsOf] at h1
    · simp only [eventsOf] at h1
      cases hrec : eventsOf gs with
      | error e => rw [hrec] at h1; simp [Except.map] at h1
      | ok evs =>
        rw [hrec] at h1
        simp only [Except.map] at h1
        cases h1
        simp only [List.cons_append, eventsOf, List.append_eq, ih evs hrec, Except.map]
    · simp [eventsOf] at h1

theorem eventsOf_of_groups (gs : List (List (List Char)))
    (h : ∀ g ∈ gs, ∃ t d, g = mkGroup t d) :
    ∃ evs, eventsOf gs = .ok evs := by
  induction gs with
  | nil => exact ⟨[], rfl⟩
  | cons g rest ih =>
    obtain ⟨t, d, hg⟩ := h g (by simp)
    obtain ⟨evs, hevs⟩ := ih (fun g' hg' => h g' (by simp [hg']))
    subst hg
    exact ⟨⟨trimSpace t, d⟩ :: evs, by simp [eventsOf, mkGroup, hevs, Except.map]⟩

theorem parseEvents_ok (b : List Char) : ∃ evs, parseEvents b = .ok evs :=
  eventsOf_of_groups _ (findAll_groups b)

/-- C2: framing is invariant to read granularity.  For any byte stream and
any split offset, framing the first chunk and then the second chunk with the
first chunk's leftover partial event text prefixed yields exactly the framed
events of the unsplit stream, in order. -/
theorem c2_framing_split (s : List Char) (n : Nat) :
    parseEvents s =
      (parseEvents (s.take n)).bind (fun e1 =>
        (parseEvents (leftoverOf (s.take n) ++ s.drop n)).map (fun e2 => e1 ++ e2)) := by
  obtain ⟨e1, he1⟩ := parseEvents_ok (s.take n)
  obtain ⟨e2, he2⟩ := parseEvents_ok (leftoverOf (s.take n) ++ s.drop n)
  rw [he1, he2]
  show parseEvents s = .ok (e1 ++ e2)
  conv_lhs => rw [← List.take_append_drop n s]
  show eventsOf (findAll (s.take n ++ s.drop n)).1 = .ok (e1 ++ e2)
  rw [findAll_append (s.take n) (s.drop n)]
  exact eventsOf_append _ _ e2 he2 e1 he1

/-- C5 evidence: the chunk "event: completion\n" is malformed (its data line
is missing), yet parseEvents returns an empty event list with no error; in
fact parseEvents never returns an error on any input — the "bad event"
guard inside it (a submatch group of length other than 3) is unreachable,
since every group the scan produces has exactly 3 entries. -/
theorem c5_malformed_not_error :
    parseEvents ("event: completion\n".toList) = .ok [] ∧
    ∀ b : List Char, ∃ evs, parseEvents b = .ok evs := by
  constructor
  · have h1 : nlCount ("event: completion\n".toList) ≤ 1 := by decide
    show eventsOf (findAll ("event: completion\n".toList)).1 = .ok []
    rw [findAll_no_nl _ h1]
    rfl
  · exact parseEvents_ok

end Anthropic
